import Mathlib

/-!
Shallow embedding of the go-tcap TLV/BER codec (package `tcap`).

Bytes are modelled as natural numbers (every Go `byte` is below 256; where a
Go cast such as `byte(x)` or `uint8(x)` truncates, the model writes `% 256`,
and Go `uint32` arithmetic is reduced `% 2 ^ 32`).  Byte buffers are `List Nat`.
Fallible Go functions, and Go runtime panics such as out-of-range slice
indexing, are modelled with `Except TcapError`.
-/

/-- Error outcomes of the codec.  The first three model the `fmt.Errorf`
values of the length codec, the next two model `io.ErrUnexpectedEOF` and
`io.ErrShortBuffer`, and `sliceOutOfRange` models a Go runtime panic caused
by slicing or indexing past the end of a buffer. -/
inductive TcapError where
  | bufferTooShortToReadLength
  | indefiniteLengthNotSupported
  | bufferTooShortForLongFormLength
  | errUnexpectedEOF
  | errShortBuffer
  | sliceOutOfRange
deriving DecidableEq, Repr

/-- Tag is a Tag in TCAP IE (Go: `type Tag uint8`). -/
abbrev Tag := Nat

/-- NewTag creates a new Tag: `Tag((cls << 6) | (form << 5) | code)`.
The cast to `uint8` is the final `% 256`. -/
def NewTag (cls form code : Nat) : Tag :=
  ((cls <<< 6) ||| (form <<< 5) ||| code) % 256

/-- Class returns the Class retrieved from a Tag: `int(t) >> 6 & 0x3`. -/
def Tag.Class (t : Tag) : Nat :=
  (t >>> 6) &&& 0x3

/-- Form returns the Form retrieved from a Tag: `int(t) >> 5 & 0x1`. -/
def Tag.Form (t : Tag) : Nat :=
  (t >>> 5) &&& 0x1

/-- Code returns the Code retrieved from a Tag: `int(t) & 0x1f`. -/
def Tag.Code (t : Tag) : Nat :=
  (t &&& 0x1f)

/-- Big-endian value bytes of a length, as produced by the loop in
`MarshalAsn1ElementLength`: repeatedly prepend `byte(tempLen & 0xff)` and
shift `tempLen >>= 8` while `tempLen > 0`. -/
def toBytesBE (n : Nat) : List Nat :=
  if n = 0 then [] else toBytesBE (n >>> 8) ++ [n &&& 0xff]
termination_by n
decreasing_by
  simp only [Nat.shiftRight_eq_div_pow]
  exact Nat.div_lt_self (Nat.pos_of_ne_zero (by assumption)) (by norm_num)

/-- MarshalAsn1ElementLength encodes an integer length into ASN.1 BER format
(`src/util.go`; an identical copy appears in the IE source document).
Short form for `length <= 127` (the emitted byte is `byte(length)`), else the
long form: header `0x80 | number-of-value-bytes` followed by the big-endian
value bytes of `uint32(length)`. -/
def MarshalAsn1ElementLength (length : Nat) : List Nat :=
  if length ≤ 127 then [length % 256]
  else
    let valBytes := toBytesBE (length % 2 ^ 32)
    ((0x80 ||| valBytes.length % 256) :: valBytes)

/-- Accumulation loop of the length decoders:
`for i := 0; i < numOctets; i++ { actualLength = (actualLength << 8) | uint32(b[2+i]) }`.
The loop reads exactly the bytes `b[2] .. b[2+numOctets-1]`, which the callers
have bounds-checked, so it is rendered as a fold over that slice; the `uint32`
arithmetic is reduced `% 2 ^ 32`. -/
def asn1LengthAccum (b : List Nat) (numOctets : Nat) : Nat :=
  ((b.drop 2).take numOctets).foldl (fun acc d => ((acc <<< 8) ||| d) % 2 ^ 32) 0

/-- UnmarshalAsn1ElementLength (`src/util.go`) returns the actual length and
the number of bytes occupied by the length field itself (including the
header byte). -/
def UnmarshalAsn1ElementLength (b : List Nat) : Except TcapError (Nat × Nat) :=
  if b.length < 2 then .error .bufferTooShortToReadLength
  else if b.getD 1 0 ≤ 0x7f then .ok (b.getD 1 0, 1)
  else
    let numOctets := b.getD 1 0 &&& 0x7f
    if numOctets = 0 then .error .indefiniteLengthNotSupported
    else if b.length < 2 + numOctets then .error .bufferTooShortForLongFormLength
    else .ok (asn1LengthAccum b numOctets, 1 + numOctets)

/-- Second definition of `UnmarshalAsn1ElementLength`, found in the companion
source document of the IE file; it returns the length only (no consumed-byte
count) and has no initial `len(b) < 2` guard (reading `b[1]` on a shorter
buffer would panic in Go, modelled by `sliceOutOfRange`).  Its signature is
the one matched by the call sites in the IE code. -/
def UnmarshalAsn1ElementLength2 (b : List Nat) : Except TcapError Nat :=
  if b.length < 2 then .error .sliceOutOfRange
  else if b.getD 1 0 ≤ 0x7f then .ok (b.getD 1 0)
  else
    let numOctets := b.getD 1 0 &&& 0x7f
    if numOctets = 0 then .error .indefiniteLengthNotSupported
    else if b.length < 2 + numOctets then .error .bufferTooShortForLongFormLength
    else .ok (asn1LengthAccum b numOctets)

/-- Value of a big-endian byte string, used to state what the long-form
value bytes denote. -/
def beVal (ds : List Nat) : Nat :=
  ds.foldl (fun a d => a * 256 + d) 0

/-- IE is a General Structure of TCAP Information Elements (Go struct with
fields `Tag`, `Length`, `Value`, `IE []*IE`).  The nested children field is
named `IE` in Go; its projection is called `children` here because a
projection named after its own type is not usable in Lean. -/
inductive IE where
  | mk (Tag : Tag) (Length : Nat) (Value : List Nat) (children : List IE)

/-- Tag field of an IE. -/
def IE.Tag : IE → Tag
  | .mk t _ _ _ => t

/-- Length field of an IE. -/
def IE.Length : IE → Nat
  | .mk _ l _ _ => l

/-- Value field of an IE. -/
def IE.Value : IE → List Nat
  | .mk _ _ v _ => v

/-- Children list of an IE (the Go field named `IE`). -/
def IE.children : IE → List IE
  | .mk _ _ _ c => c

/-- NewIE creates a new IE: sets `Tag` and `Value`, then `SetLength`
(so `Length = len(Value)`); the children list starts empty (Go nil). -/
def NewIE (t : Tag) (value : List Nat) : IE :=
  .mk t value.length value []

/-- MarshalLen returns the serial length of IE:
`1 (Tag) + length of the length header + ie.Length`. -/
def IE.MarshalLen (ie : IE) : Nat :=
  1 + (MarshalAsn1ElementLength ie.Length).length + ie.Length

/-- Go `copy(dst, src)`: copies `min (len src) (len dst)` bytes of `src`
over the front of `dst`, leaving the rest of `dst` unchanged. -/
def goCopy (dst src : List Nat) : List Nat :=
  src.take dst.length ++ dst.drop src.length

/-- Go `copy(b[lo:hi], src)` on a buffer `b`: the slice `b[lo:hi]` aliases
`b`, so the copy rewrites that window in place. -/
def goCopyAt (b : List Nat) (lo hi : Nat) (src : List Nat) : List Nat :=
  b.take lo ++ goCopy ((b.take hi).drop lo) src ++ b.drop hi

/-- MarshalTo puts the byte sequence in the byte array given as `b`:
after the `len(b) < 2` and `len(b) < 1 + len(lenBytes) + len(i.Value)`
guards it performs `b[0] = uint8(i.Tag)`, `copy(b[1:], lenBytes)` and
`copy(b[2:i.MarshalLen()], i.Value)`.  The slice expression
`b[2:i.MarshalLen()]` panics in Go when `i.MarshalLen() > len(b)`
(modelled by `sliceOutOfRange`; unreachable when `i.Length = len(i.Value)`). -/
def IE.MarshalTo (i : IE) (b : List Nat) : Except TcapError (List Nat) :=
  if b.length < 2 then .error .errUnexpectedEOF
  else
    let lenBytes := MarshalAsn1ElementLength i.Length
    let totalNeeded := 1 + lenBytes.length + i.Value.length
    if b.length < totalNeeded then .error .errShortBuffer
    else if i.MarshalLen ≤ b.length then
      .ok (goCopyAt (goCopyAt (b.set 0 (i.Tag % 256)) 1 b.length lenBytes) 2 i.MarshalLen i.Value)
    else .error .sliceOutOfRange

/-- MarshalBinary returns the byte sequence generated from a IE instance:
`b := make([]byte, i.MarshalLen())` (zero-filled) followed by `i.MarshalTo(b)`. -/
def IE.MarshalBinary (i : IE) : Except TcapError (List Nat) :=
  i.MarshalTo (List.replicate i.MarshalLen 0)

/-- UnmarshalBinary sets the values retrieved from byte sequence in an IE
(called on a zero-valued receiver by `ParseIE`): requires `len(b) >= 3`,
reads `Tag` from `b[0]`, decodes `Length` with the length codec, requires
`len(b) >= 2 + Length`, slices `Value = b[2 : 2+Length]` and never touches
the children list. -/
def UnmarshalBinary (b : List Nat) : Except TcapError IE :=
  if b.length < 3 then .error .errUnexpectedEOF
  else
    match UnmarshalAsn1ElementLength2 b with
    | .error e => .error e
    | .ok len =>
      if b.length < 2 + len then .error .errUnexpectedEOF
      else .ok (.mk (b.getD 0 0) len ((b.drop 2).take len) [])

/-- ParseIE parses given byte sequence as an IE (a fresh IE plus
`UnmarshalBinary`). -/
def ParseIE (b : List Nat) : Except TcapError IE :=
  UnmarshalBinary b

/-- ParseMultiIEs parses multiple (unspecified number of) IEs at a time:
repeatedly `ParseIE` the front of the buffer and advance by
`i.MarshalLen()`.  The Go advance `b = b[i.MarshalLen():]` panics when
`i.MarshalLen() > len(b)` (modelled by `sliceOutOfRange`). -/
def ParseMultiIEs (b : List Nat) : Except TcapError (List IE) :=
  if hb : b.length = 0 then .ok []
  else
    match ParseIE b with
    | .error e => .error e
    | .ok i =>
      if i.MarshalLen ≤ b.length then
        match ParseMultiIEs (b.drop i.MarshalLen) with
        | .error e => .error e
        | .ok rest => .ok (i :: rest)
      else .error .sliceOutOfRange
termination_by b.length
decreasing_by
  have hml : 1 ≤ i.MarshalLen := by
    simp only [IE.MarshalLen]; omega
  simp only [List.length_drop]
  omega

/-- Cursor advance used by the loop of `ParseAsBER` once an element `i` has
been parsed: `i.MarshalLen()` when the children list is empty, else
`2 + sum of the children's MarshalLen()` when the first child's
`MarshalLen()` is below `i.MarshalLen() - 2`, else `i.MarshalLen()`. -/
def berAdvance (i : IE) : Nat :=
  if i.children.length = 0 then i.MarshalLen
  else if (i.children.headD (.mk 0 0 [] [])).MarshalLen < i.MarshalLen - 2 then
    2 + (i.children.map IE.MarshalLen).sum
  else i.MarshalLen

/-- Positivity of the cursor advance, needed for termination of the
recursive parse loop. -/
theorem berAdvance_pos (i : IE) : 1 ≤ berAdvance i := by
  simp only [berAdvance, IE.MarshalLen]
  split
  · omega
  · split <;> omega

mutual

/-- ParseAsBER parses given byte sequence as multiple IEs: repeatedly
`ParseIERecursive` the front of the buffer and advance by `berAdvance`
(the advance's slice expression panics in Go when it exceeds the remaining
buffer, modelled by `sliceOutOfRange`). -/
def ParseAsBER (b : List Nat) : Except TcapError (List IE) :=
  if hb : b.length = 0 then .ok []
  else
    match ParseIERecursive b with
    | .error e => .error e
    | .ok i =>
      let l := berAdvance i
      if hl : l ≤ b.length then
        match ParseAsBER (b.drop l) with
        | .error e => .error e
        | .ok rest => .ok (i :: rest)
      else .error .sliceOutOfRange
termination_by (b.length, 2)
decreasing_by
  · apply Prod.Lex.right
    omega
  · apply Prod.Lex.left
    have := berAdvance_pos i
    simp only [List.length_drop]
    omega

/-- ParseIERecursive parses given byte sequence as an IE (a fresh IE plus
`ParseRecursive`). -/
def ParseIERecursive (b : List Nat) : Except TcapError IE :=
  ParseRecursive b
termination_by (b.length, 1)
decreasing_by
  apply Prod.Lex.right
  omega

/-- ParseRecursive sets the values retrieved from byte sequence in an IE
(called on a zero-valued receiver): requires `len(b) >= 2`, reads the tag
and the length, and returns with no error and no value when
`Length + 2 > len(b)`; otherwise slices the value and, when the tag form
is constructed, parses the value with `ParseAsBER`, swallowing any inner
error (children stay empty) and appending the parsed children otherwise. -/
def ParseRecursive (b : List Nat) : Except TcapError IE :=
  if h2 : b.length < 2 then .error .errUnexpectedEOF
  else
    match UnmarshalAsn1ElementLength2 b with
    | .error e => .error e
    | .ok len =>
      if hov : len + 2 > b.length then .ok (.mk (b.getD 0 0) len [] [])
      else
        let value := (b.drop 2).take len
        if Tag.Form (b.getD 0 0) = 1 then
          match ParseAsBER value with
          | .error _ => .ok (.mk (b.getD 0 0) len value [])
          | .ok x => .ok (.mk (b.getD 0 0) len value x)
        else .ok (.mk (b.getD 0 0) len value [])
termination_by (b.length, 0)
decreasing_by
  apply Prod.Lex.left
  simp only [List.length_take, List.length_drop]
  omega

end

/-- Go `x & 0xff` equals `x % 256`. -/
theorem and_255_eq_mod (x : Nat) : x &&& 0xff = x % 256 := by
  have h := Nat.and_pow_two_sub_one_eq_mod x 8
  norm_num at h
  exact h

/-- Go `x >> 8` equals `x / 256` on naturals. -/
theorem shiftRight_8_eq_div (x : Nat) : x >>> 8 = x / 256 := by
  rw [Nat.shiftRight_eq_div_pow]

/-- Every byte produced by `toBytesBE` is below 256. -/
theorem toBytesBE_mem_lt {n d : Nat} (hd : d ∈ toBytesBE n) : d < 256 := by
  induction n using Nat.strong_induction_on with
  | _ n ih =>
    rw [toBytesBE] at hd
    split at hd
    · simp at hd
    · rcases List.mem_append.mp hd with h | h
      · exact ih (n >>> 8)
          (by rw [shiftRight_8_eq_div]
              exact Nat.div_lt_self (Nat.pos_of_ne_zero (by assumption)) (by norm_num)) h
      · simp at h
        subst h
        rw [and_255_eq_mod]
        exact Nat.mod_lt _ (by norm_num)

/-- Big-endian fold from an arbitrary accumulator. -/
theorem foldl_beVal (ds : List Nat) (a : Nat) :
    ds.foldl (fun x d => x * 256 + d) a = a * 256 ^ ds.length + beVal ds := by
  induction ds generalizing a with
  | nil => simp [beVal]
  | cons d ds ih =>
    simp only [List.foldl_cons, beVal, List.length_cons]
    rw [show (List.foldl (fun x d => x * 256 + d) (a * 256 + d) ds) =
          (a * 256 + d) * 256 ^ ds.length + beVal ds from ih _,
        show (List.foldl (fun x d => x * 256 + d) (0 * 256 + d) ds) =
          (0 * 256 + d) * 256 ^ ds.length + beVal ds from ih _]
    ring

/-- Appending a final byte multiplies the big-endian value by 256. -/
theorem beVal_append (ds : List Nat) (d : Nat) :
    beVal (ds ++ [d]) = beVal ds * 256 + d := by
  simp [beVal, List.foldl_append]

/-- The big-endian bytes of `n` denote `n`. -/
theorem beVal_toBytesBE (n : Nat) : beVal (toBytesBE n) = n := by
  induction n using Nat.strong_induction_on with
  | _ n ih =>
    rw [toBytesBE]
    split
    · simp [beVal]
      omega
    · rw [beVal_append,
          ih (n >>> 8)
            (by rw [shiftRight_8_eq_div]
                exact Nat.div_lt_self (Nat.pos_of_ne_zero (by assumption)) (by norm_num)),
          shiftRight_8_eq_div, and_255_eq_mod]
      omega

/-- A nonzero value has at least one big-endian byte. -/
theorem toBytesBE_ne_nil {n : Nat} (hn : n ≠ 0) : toBytesBE n ≠ [] := by
  rw [toBytesBE]
  simp [hn]

/-- The leading big-endian byte of a nonzero value is nonzero. -/
theorem toBytesBE_headD {n : Nat} (hn : n ≠ 0) : (toBytesBE n).headD 0 ≠ 0 := by
  induction n using Nat.strong_induction_on with
  | _ n ih =>
    rw [toBytesBE]
    simp only [hn, if_false]
    by_cases h8 : n >>> 8 = 0
    · rw [h8, toBytesBE]
      simp only [if_pos rfl, List.nil_append, List.headD_cons, and_255_eq_mod]
      rw [shiftRight_8_eq_div] at h8
      have : n < 256 := by omega
      rw [Nat.mod_eq_of_lt this]
      exact hn
    · have hlt : n >>> 8 < n := by
        rw [shiftRight_8_eq_div]
        exact Nat.div_lt_self (Nat.pos_of_ne_zero hn) (by norm_num)
      have := ih (n >>> 8) hlt h8
      cases hc : toBytesBE (n >>> 8) with
      | nil => exact absurd hc (toBytesBE_ne_nil h8)
      | cons x xs =>
        rw [hc] at this
        simpa using this

/-- A value below `256 ^ m` takes at most `m` big-endian bytes. -/
theorem toBytesBE_length_le {m : Nat} : ∀ {n : Nat}, n < 256 ^ m → (toBytesBE n).length ≤ m := by
  induction m with
  | zero =>
    intro n hn
    have : n = 0 := by simpa using hn
    subst this
    rw [toBytesBE]
    simp
  | succ m ih =>
    intro n hn
    by_cases h0 : n = 0
    · subst h0
      rw [toBytesBE]
      simp
    · rw [toBytesBE]
      simp only [h0, if_false, List.length_append, List.length_cons, List.length_nil]
      have : n >>> 8 < 256 ^ m := by
        rw [shiftRight_8_eq_div]
        rw [Nat.div_lt_iff_lt_mul (by norm_num)]
        calc n < 256 ^ (m + 1) := hn
        _ = 256 ^ m * 256 := by ring
      have := ih this
      omega

/-- Go `0x80 | k` equals `128 + k` for `k < 128`. -/
theorem lor_128 {k : Nat} (hk : k < 128) : 0x80 ||| k = 128 + k := by
  have h := Nat.mul_add_lt_is_or (i := 7) (a := 1) hk
  norm_num at h
  omega

/-- Go `h & 0x7f` recovers `k` from the long-form header `128 + k`
when `k < 128`. -/
theorem and_127_header {k : Nat} (hk : k < 128) : (128 + k) &&& 0x7f = k := by
  have h := Nat.and_pow_two_sub_one_eq_mod (128 + k) 7
  norm_num at h
  omega

/-- One step of the decoder accumulation is plain base-256 arithmetic when
the incoming byte is below 256 and no `uint32` overflow occurs. -/
theorem accum_step {acc d : Nat} (hd : d < 256) (hb : acc * 256 + d < 2 ^ 32) :
    ((acc <<< 8) ||| d) % 2 ^ 32 = acc * 256 + d := by
  rw [Nat.shiftLeft_eq]
  have h := Nat.mul_add_lt_is_or (i := 8) (a := acc) hd
  norm_num at h ⊢
  rw [Nat.mul_comm 256 acc] at h
  rw [← h]
  omega

/-- The decoder accumulation over in-range bytes computes the big-endian
value, provided the result does not overflow `uint32`. -/
theorem accum_fold (ds : List Nat) :
    ∀ a : Nat, (∀ d ∈ ds, d < 256) → a * 256 ^ ds.length + beVal ds < 2 ^ 32 →
      ds.foldl (fun acc d => ((acc <<< 8) ||| d) % 2 ^ 32) a =
        a * 256 ^ ds.length + beVal ds := by
  induction ds with
  | nil =>
    intro a _ _
    simp [beVal]
  | cons d ds ih =>
    intro a hmem hbound
    have hd : d < 256 := hmem d (List.mem_cons_self _ _)
    have hbe : beVal (d :: ds) = d * 256 ^ ds.length + beVal ds := by
      simp only [beVal, List.foldl_cons]
      rw [foldl_beVal ds]
      simp only [beVal]
      ring_nf
    have hpow : 0 < 256 ^ ds.length := pow_pos (by norm_num) _
    have hkey : a * 256 ^ (d :: ds).length + beVal (d :: ds) =
        (a * 256 + d) * 256 ^ ds.length + beVal ds := by
      rw [hbe]
      simp only [List.length_cons]
      ring
    have hstep : a * 256 + d < 2 ^ 32 := by
      have h1 : a * 256 + d ≤ (a * 256 + d) * 256 ^ ds.length :=
        Nat.le_mul_of_pos_right _ hpow
      omega
    simp only [List.foldl_cons]
    rw [accum_step hd hstep, ih (a * 256 + d) (fun x hx => hmem x (List.mem_cons_of_mem _ hx))
        (by omega), hkey]

/-- Short-form encoding result. -/
theorem marshal_length_short {n : Nat} (hn : n ≤ 127) :
    MarshalAsn1ElementLength n = [n] := by
  rw [MarshalAsn1ElementLength, if_pos hn, Nat.mod_eq_of_lt (by omega)]

/-- Long-form encoding result for `127 < n < 2 ^ 32`. -/
theorem marshal_length_long {n : Nat} (h127 : 127 < n) (hn : n < 2 ^ 32) :
    MarshalAsn1ElementLength n = (128 + (toBytesBE n).length) :: toBytesBE n := by
  have hk : (toBytesBE n).length ≤ 4 := toBytesBE_length_le (by norm_num at hn ⊢; omega)
  rw [MarshalAsn1ElementLength, if_neg (show ¬ n ≤ 127 by omega)]
  show ((0x80 ||| (toBytesBE (n % 2 ^ 32)).length % 256) :: toBytesBE (n % 2 ^ 32)) = _
  rw [Nat.mod_eq_of_lt hn,
      Nat.mod_eq_of_lt (show (toBytesBE n).length < 256 by omega), lor_128 (by omega)]

/-- C1: for every `n < 2 ^ 32` and any tag byte `t`, decoding
`t :: MarshalAsn1ElementLength n` returns `(n, length of the encoding)`
with no error, and the encoding is the minimal BER length encoding: one
byte `[n]` when `n ≤ 127`, else the header `0x80 ||| k` followed by the
`k` big-endian bytes of `n` with no leading zero byte. -/
theorem length_codec_roundtrip_minimal (n : Nat) (hn : n < 2 ^ 32) (t : Nat) :
    UnmarshalAsn1ElementLength (t :: MarshalAsn1ElementLength n) =
      .ok (n, (MarshalAsn1ElementLength n).length) ∧
    (n ≤ 127 → MarshalAsn1ElementLength n = [n]) ∧
    (127 < n →
      MarshalAsn1ElementLength n = (0x80 ||| (toBytesBE n).length) :: toBytesBE n ∧
      toBytesBE n ≠ [] ∧ (toBytesBE n).headD 0 ≠ 0 ∧ beVal (toBytesBE n) = n) := by
  by_cases h127 : n ≤ 127
  · refine ⟨?_, fun _ => marshal_length_short h127, fun h => absurd h (by omega)⟩
    rw [marshal_length_short h127]
    rw [UnmarshalAsn1ElementLength, if_neg (by simp only [List.length_cons]; omega)]
    have hg : ([t, n] : List Nat).getD 1 0 = n := rfl
    rw [hg, if_pos (by omega)]
    rfl
  · have h127' : 127 < n := by omega
    have hn0 : n ≠ 0 := by omega
    have hn' : n < 256 ^ 4 := by
      have h2 : (2 : Nat) ^ 32 = 256 ^ 4 := by norm_num
      omega
    have hk4 : (toBytesBE n).length ≤ 4 := toBytesBE_length_le hn'
    have hne : toBytesBE n ≠ [] := toBytesBE_ne_nil hn0
    have hk1 : 1 ≤ (toBytesBE n).length := by
      cases hc : toBytesBE n with
      | nil => exact absurd hc hne
      | cons x xs => simp [hc]
    have henc := marshal_length_long h127' hn
    refine ⟨?_, fun h => absurd h (by omega), fun _ => ⟨?_, hne, toBytesBE_headD hn0,
      beVal_toBytesBE n⟩⟩
    · rw [henc]
      rw [UnmarshalAsn1ElementLength, if_neg (by simp only [List.length_cons]; omega)]
      have hg : (t :: (128 + (toBytesBE n).length) :: toBytesBE n).getD 1 0 =
          128 + (toBytesBE n).length := rfl
      rw [hg, if_neg (by omega)]
      show (if 128 + (toBytesBE n).length &&& 0x7f = 0 then _ else _) = _
      rw [and_127_header (by omega), if_neg (by omega),
          if_neg (by simp only [List.length_cons]; omega)]
      have hacc : asn1LengthAccum (t :: (128 + (toBytesBE n).length) :: toBytesBE n)
          (toBytesBE n).length = n := by
        rw [asn1LengthAccum]
        have hdrop : (t :: (128 + (toBytesBE n).length) :: toBytesBE n).drop 2 =
            toBytesBE n := rfl
        rw [hdrop, List.take_length]
        rw [accum_fold (toBytesBE n) 0 (fun d hd => toBytesBE_mem_lt hd)
            (by rw [beVal_toBytesBE]; omega)]
        rw [beVal_toBytesBE]
        omega
      rw [hacc]
      simp only [List.length_cons, Except.ok.injEq, Prod.mk.injEq]
      exact ⟨trivial, by omega⟩
    · rw [henc, lor_128 (by omega)]

/-- Witness for C1 at the spec's concrete case `n = 300`:
`MarshalAsn1ElementLength 300 = [0x82, 0x01, 0x2C]` and decoding it after a
tag byte returns `(300, 3)`. -/
theorem length_codec_roundtrip_minimal_witness :
    MarshalAsn1ElementLength 300 = [0x82, 0x01, 0x2C] ∧
    UnmarshalAsn1ElementLength [0x04, 0x82, 0x01, 0x2C] = .ok (300, 3) := by
  have h300 : toBytesBE 300 = [1, 44] := by
    simp [toBytesBE, shiftRight_8_eq_div, and_255_eq_mod]
  have henc : MarshalAsn1ElementLength 300 = [0x82, 0x01, 0x2C] := by
    rw [marshal_length_long (by norm_num) (by norm_num), h300]
    norm_num
  have h := (length_codec_roundtrip_minimal 300 (by norm_num) 0x04).1
  rw [henc] at h
  exact ⟨henc, by simpa using h⟩

/-- C8: for every class in `[0,3]`, form in `{0,1}` and code in `[0,31]`,
`NewTag` packs the fields as `(class << 6) | (form << 5) | code` and the
accessors `Class`, `Form` and `Code` recover exactly those fields. -/
theorem tag_roundtrip :
    ∀ cls < 4, ∀ form < 2, ∀ code < 32,
      NewTag cls form code = ((cls <<< 6) ||| (form <<< 5) ||| code) ∧
      Tag.Class (NewTag cls form code) = cls ∧
      Tag.Form (NewTag cls form code) = form ∧
      Tag.Code (NewTag cls form code) = code := by
  decide

/-- Witness for C8 at class 2 (context-specific), form 1 (constructor),
code 5. -/
theorem tag_roundtrip_witness :
    NewTag 2 1 5 = ((2 <<< 6) ||| (1 <<< 5) ||| 5) ∧
    Tag.Class (NewTag 2 1 5) = 2 ∧
    Tag.Form (NewTag 2 1 5) = 1 ∧
    Tag.Code (NewTag 2 1 5) = 5 :=
  tag_roundtrip 2 (by decide) 1 (by decide) 5 (by decide)

/-- C9: on any buffer of at least two bytes whose length-header byte `b[1]`
is exactly `0x80` (BER indefinite length), both length decoders fail with
the unsupported-encoding error, and the flat parser `UnmarshalBinary`
propagates that error to its caller whenever it reaches the decoder
(`len(b) >= 3`). -/
theorem indefinite_length_rejected (b : List Nat) (hb : 2 ≤ b.length)
    (h80 : b.getD 1 0 = 0x80) :
    UnmarshalAsn1ElementLength b = .error .indefiniteLengthNotSupported ∧
    UnmarshalAsn1ElementLength2 b = .error .indefiniteLengthNotSupported ∧
    (3 ≤ b.length → UnmarshalBinary b = .error .indefiniteLengthNotSupported) := by
  have h1 : UnmarshalAsn1ElementLength b = .error .indefiniteLengthNotSupported := by
    rw [UnmarshalAsn1ElementLength, if_neg (by omega), h80]
    rfl
  have h2 : UnmarshalAsn1ElementLength2 b = .error .indefiniteLengthNotSupported := by
    rw [UnmarshalAsn1ElementLength2, if_neg (by omega), h80]
    rfl
  refine ⟨h1, h2, fun h3 => ?_⟩
  rw [UnmarshalBinary, if_neg (by omega), h2]

/-- Witness for C9 on the concrete buffer `[0x04, 0x80, 0xFF]`. -/
theorem indefinite_length_rejected_witness :
    UnmarshalAsn1ElementLength [0x04, 0x80, 0xFF] = .error .indefiniteLengthNotSupported ∧
    UnmarshalAsn1ElementLength2 [0x04, 0x80, 0xFF] = .error .indefiniteLengthNotSupported ∧
    UnmarshalBinary [0x04, 0x80, 0xFF] = .error .indefiniteLengthNotSupported := by
  have h := indefinite_length_rejected [0x04, 0x80, 0xFF] (by decide) (by decide)
  exact ⟨h.1, h.2.1, h.2.2 (by decide)⟩

/-- C6: the strict flat single-IE parse fails with the truncated-buffer
error when `len(b) < 3` or when `len(b) < 2 + L` for the decoded length
`L`; otherwise it returns `Tag = b[0]`, `Length = L`,
`Value = b[2 : 2+L]` and an empty children list. -/
theorem flat_parse_strict (b : List Nat) :
    (b.length < 3 → UnmarshalBinary b = .error .errUnexpectedEOF) ∧
    (∀ L, UnmarshalAsn1ElementLength2 b = .ok L →
      (b.length < 2 + L → UnmarshalBinary b = .error .errUnexpectedEOF) ∧
      (3 ≤ b.length → 2 + L ≤ b.length →
        UnmarshalBinary b = .ok (.mk (b.getD 0 0) L ((b.drop 2).take L) []))) := by
  refine ⟨fun h3 => ?_, fun L hdec => ⟨fun hlt => ?_, fun h3 hge => ?_⟩⟩
  · rw [UnmarshalBinary, if_pos h3]
  · by_cases h3 : b.length < 3
    · rw [UnmarshalBinary, if_pos h3]
    · rw [UnmarshalBinary, if_neg h3]
      simp only [hdec]
      rw [if_pos hlt]
  · rw [UnmarshalBinary, if_neg (by omega)]
    simp only [hdec]
    rw [if_neg (by omega)]

/-- Witness for C6: a well-formed 4-byte buffer parses into its fields, and
a buffer shorter than its declared length is rejected. -/
theorem flat_parse_strict_witness :
    UnmarshalBinary [4, 2, 9, 9] = .ok (.mk 4 2 [9, 9] []) ∧
    UnmarshalBinary [4, 5, 9] = .error .errUnexpectedEOF := by
  constructor
  · exact ((flat_parse_strict [4, 2, 9, 9]).2 2 (by rfl)).2 (by decide) (by decide)
  · exact ((flat_parse_strict [4, 5, 9]).2 5 (by rfl)).1 (by decide)

/-- C4: the recursive parser is lenient where the flat parser is strict.
If the decoded length overruns the buffer (`L + 2 > len(b)`),
`ParseRecursive` succeeds with the value left unset while `UnmarshalBinary`
fails with the truncated-buffer error on the same buffer; and if a
constructed element's value bytes fail to parse as a child sequence,
`ParseRecursive` succeeds with the children list left empty. -/
theorem recursive_parse_lenient (b : List Nat) (L : Nat) (hb : 2 ≤ b.length)
    (hdec : UnmarshalAsn1ElementLength2 b = .ok L) :
    (b.length < L + 2 →
      ParseRecursive b = .ok (.mk (b.getD 0 0) L [] []) ∧
      UnmarshalBinary b = .error .errUnexpectedEOF) ∧
    (L + 2 ≤ b.length → Tag.Form (b.getD 0 0) = 1 →
      ∀ e, ParseAsBER ((b.drop 2).take L) = .error e →
        ParseRecursive b = .ok (.mk (b.getD 0 0) L ((b.drop 2).take L) [])) := by
  constructor
  · intro hov
    constructor
    · rw [ParseRecursive]
      rw [dif_neg (by omega)]
      simp only [hdec]
      rw [dif_pos (by omega)]
    · by_cases h3 : b.length < 3
      · rw [UnmarshalBinary, if_pos h3]
      · rw [UnmarshalBinary, if_neg h3]
        simp only [hdec]
        rw [if_pos (by omega)]
  · intro hle hform e herr
    rw [ParseRecursive]
    rw [dif_neg (by omega)]
    simp only [hdec]
    rw [dif_neg (by omega), if_pos hform]
    simp only [herr]

/-- Witness for C4: the overrunning buffer `[0x24, 0x05]` parses leniently
to a node with no value while the flat parser rejects it, and the
constructed element `[0x24, 0x01, 0xFF]`, whose value `[0xFF]` fails to
parse as a child sequence, parses leniently to a node with no children. -/
theorem recursive_parse_lenient_witness :
    ParseRecursive [0x24, 0x05] = .ok (.mk 0x24 5 [] []) ∧
    UnmarshalBinary [0x24, 0x05] = .error .errUnexpectedEOF ∧
    ParseRecursive [0x24, 0x01, 0xFF] = .ok (.mk 0x24 1 [0xFF] []) := by
  have h1 := (recursive_parse_lenient [0x24, 0x05] 5 (by decide) (by rfl)).1 (by decide)
  have hinner : ParseAsBER ([0xFF] : List Nat) = .error .errUnexpectedEOF := by
    rw [ParseAsBER]
    rw [dif_neg (by decide)]
    have : ParseIERecursive [0xFF] = .error .errUnexpectedEOF := by
      rw [ParseIERecursive, ParseRecursive]
      rw [dif_pos (by decide)]
    simp only [this]
  have h2 := (recursive_parse_lenient [0x24, 0x01, 0xFF] 1 (by decide) (by rfl)).2
    (by decide) (by decide) .errUnexpectedEOF hinner
  exact ⟨h1.1, h1.2, h2⟩

/-- C5: once `ParseAsBER` has parsed an element `i` of a sequence, the
outer cursor advances by `berAdvance i`, which is
`2 + sum of the children's MarshalLen` exactly when `i` has at least one
child whose head's `MarshalLen` is strictly below `i.MarshalLen - 2`, and
`i.MarshalLen` in every other case. -/
theorem ber_cursor_advance (b : List Nat) (i : IE) (hne : ¬ b.length = 0)
    (h : ParseIERecursive b = .ok i) (hl : berAdvance i ≤ b.length) :
    ParseAsBER b = (ParseAsBER (b.drop (berAdvance i))).map (fun r => i :: r) ∧
    (i.children.length ≠ 0 ∧
        (i.children.headD (.mk 0 0 [] [])).MarshalLen < i.MarshalLen - 2 →
      berAdvance i = 2 + (i.children.map IE.MarshalLen).sum) ∧
    (¬ (i.children.length ≠ 0 ∧
        (i.children.headD (.mk 0 0 [] [])).MarshalLen < i.MarshalLen - 2) →
      berAdvance i = i.MarshalLen) := by
  refine ⟨?_, fun hc => ?_, fun hc => ?_⟩
  · rw [ParseAsBER]
    rw [dif_neg hne]
    simp only [h]
    rw [dif_pos hl]
    cases hrec : ParseAsBER (b.drop (berAdvance i)) with
    | error e => simp [hrec, Except.map]
    | ok rest => simp [hrec, Except.map]
  · rw [berAdvance, if_neg hc.1, if_pos hc.2]
  · rw [berAdvance]
    by_cases hz : i.children.length = 0
    · rw [if_pos hz]
    · rw [if_neg hz, if_neg (by tauto)]

/-- Witness for C5 on the primitive element `[4, 1, 9]`: the advance is its
whole `MarshalLen` (3 bytes) and the sequence parse returns it alone. -/
theorem ber_cursor_advance_witness :
    ParseAsBER [4, 1, 9] = .ok [IE.mk 4 1 [9] []] ∧
    berAdvance (IE.mk 4 1 [9] []) = 3 := by
  have hpr : ParseIERecursive [4, 1, 9] = .ok (IE.mk 4 1 [9] []) := by
    rw [ParseIERecursive, ParseRecursive]
    rw [dif_neg (by decide)]
    have hd : UnmarshalAsn1ElementLength2 [4, 1, 9] = .ok 1 := by rfl
    simp only [hd]
    rw [dif_neg (by decide), if_neg (by decide)]
    rfl
  have hml : (IE.mk 4 1 [9] []).MarshalLen = 3 := by
    norm_num [IE.MarshalLen, IE.Length, MarshalAsn1ElementLength]
  have hadv : berAdvance (IE.mk 4 1 [9] []) = 3 := by
    rw [berAdvance, if_pos (by norm_num [IE.children]), hml]
  have h := ber_cursor_advance [4, 1, 9] (.mk 4 1 [9] []) (by decide) hpr
    (by rw [hadv]; decide)
  have hnil : ParseAsBER ([] : List Nat) = .ok [] := by
    rw [ParseAsBER]
    rfl
  have h1 := h.1
  rw [hadv] at h1
  have hdrop : ([4, 1, 9] : List Nat).drop 3 = [] := rfl
  rw [hdrop, hnil] at h1
  exact ⟨h1, hadv⟩

/-- Short-form serialization of a freshly built IE: for a tag byte below
256 and a value of 1 to 127 bytes, `MarshalBinary` emits exactly
`tag :: length :: value`. -/
theorem marshalBinary_short (t : Nat) (v : List Nat) (ht : t < 256)
    (h1 : 1 ≤ v.length) (h7 : v.length ≤ 127) :
    (NewIE t v).MarshalBinary = .ok (t :: v.length :: v) := by
  have hhdr : MarshalAsn1ElementLength (NewIE t v).Length = [v.length] := by
    rw [show (NewIE t v).Length = v.length from rfl, marshal_length_short h7]
  have hml : (NewIE t v).MarshalLen = 2 + v.length := by
    rw [IE.MarshalLen, hhdr]
    simp [NewIE, IE.Length]
  rw [IE.MarshalBinary, IE.MarshalTo, hml]
  rw [if_neg (by simp only [List.length_replicate]; omega)]
  simp only [hhdr]
  rw [if_neg (by simp only [List.length_replicate, List.length_cons, List.length_nil,
        NewIE, IE.Value]; omega)]
  rw [if_pos (by simp only [List.length_replicate]; omega)]
  have hset : (List.replicate (2 + v.length) 0).set 0 ((NewIE t v).Tag % 256) =
      t :: List.replicate (1 + v.length) 0 := by
    rw [show (2 + v.length) = (1 + v.length) + 1 by omega]
    rw [show ((1 + v.length) + 1) = Nat.succ (1 + v.length) from rfl]
    rw [List.replicate_succ]
    rw [List.set_cons_zero]
    rw [show (NewIE t v).Tag = t from rfl, Nat.mod_eq_of_lt ht]
  rw [hset]
  simp only [List.length_replicate, show (NewIE t v).Value = v from rfl]
  have hstep1 : goCopyAt (t :: List.replicate (1 + v.length) 0) 1
      (t :: List.replicate (1 + v.length) 0).length [v.length] =
      t :: v.length :: List.replicate v.length 0 := by
    rw [goCopyAt]
    have hlen : (t :: List.replicate (1 + v.length) 0).length = 2 + v.length := by
      simp only [List.length_cons, List.length_replicate]; omega
    rw [List.take_length, List.drop_length]
    have htake1 : (t :: List.replicate (1 + v.length) 0).take 1 = [t] := rfl
    have hdrop1 : (t :: List.replicate (1 + v.length) 0).drop 1 =
        List.replicate (1 + v.length) 0 := rfl
    rw [htake1, hdrop1, goCopy]
    simp only [List.length_replicate, List.length_cons, List.length_nil]
    rw [List.take_of_length_le (by simp only [List.length_cons, List.length_nil]; omega),
        List.drop_replicate]
    rw [show (1 + v.length) - 1 = v.length by omega]
    simp
  have hlenfix : (t :: List.replicate (1 + v.length) 0).length = 2 + v.length := by
    simp only [List.length_cons, List.length_replicate]; omega
  rw [hlenfix] at hstep1
  rw [hstep1]
  have hstep2 : goCopyAt (t :: v.length :: List.replicate v.length 0) 2
      (2 + v.length) v = t :: v.length :: v := by
    rw [goCopyAt]
    have hlen2 : (t :: v.length :: List.replicate v.length 0).length = 2 + v.length := by
      simp only [List.length_cons, List.length_replicate]; omega
    rw [← hlen2, List.take_length, List.drop_length]
    have htake2 : (t :: v.length :: List.replicate v.length 0).take 2 = [t, v.length] := rfl
    have hdrop2 : (t :: v.length :: List.replicate v.length 0).drop 2 =
        List.replicate v.length 0 := rfl
    rw [htake2, hdrop2, goCopy]
    simp only [List.length_replicate]
    rw [List.take_length, List.drop_replicate]
    simp
  rw [hstep2]

/-- Short-form flat parse of an encoded IE sitting at the front of a longer
buffer: the parser recovers tag, length and value and ignores the rest. -/
theorem unmarshalBinary_short (t : Nat) (v rest : List Nat)
    (h1 : 1 ≤ v.length) (h7 : v.length ≤ 127) :
    UnmarshalBinary (t :: v.length :: (v ++ rest)) = .ok (.mk t v.length v []) := by
  have hdec : UnmarshalAsn1ElementLength2 (t :: v.length :: (v ++ rest)) =
      .ok v.length := by
    rw [UnmarshalAsn1ElementLength2,
        if_neg (by simp only [List.length_cons]; omega)]
    have hg : (t :: v.length :: (v ++ rest)).getD 1 0 = v.length := rfl
    rw [hg, if_pos h7]
  rw [UnmarshalBinary,
      if_neg (by simp only [List.length_cons, List.length_append]; omega)]
  simp only [hdec]
  rw [if_neg (by simp only [List.length_cons, List.length_append]; omega)]
  have hval : ((t :: v.length :: (v ++ rest)).drop 2).take v.length = v := by
    have hdrop : (t :: v.length :: (v ++ rest)).drop 2 = v ++ rest := rfl
    rw [hdrop, ← show v.length = v.length from rfl]
    exact List.take_left v rest
  rw [hval]
  rfl

/-- C3 (amended): the primitive IE round-trip `parse(serialize(ie)) = ie`
holds for every IE built by `NewIE` from a tag byte and a value of 1 to
127 bytes.  It fails outside that range: see the counterexample. -/
theorem primitive_ie_roundtrip (t : Nat) (v : List Nat) (ht : t < 256)
    (h1 : 1 ≤ v.length) (h7 : v.length ≤ 127) :
    (NewIE t v).MarshalBinary.bind ParseIE = .ok (NewIE t v) := by
  rw [marshalBinary_short t v ht h1 h7]
  show ParseIE (t :: v.length :: v) = .ok (NewIE t v)
  have h := unmarshalBinary_short t v [] h1 h7
  rw [List.append_nil] at h
  exact h

/-- Witness for C3 on the spec's concrete case 4: tag `0x04`, value
`[0xAA, 0xBB]`. -/
theorem primitive_ie_roundtrip_witness :
    (NewIE 0x04 [0xAA, 0xBB]).MarshalBinary.bind ParseIE =
      .ok (NewIE 0x04 [0xAA, 0xBB]) :=
  primitive_ie_roundtrip 0x04 [0xAA, 0xBB] (by decide) (by decide) (by decide)

/-- Evaluation of the length header for `Length = 128`. -/
theorem marshal_length_128 : MarshalAsn1ElementLength 128 = [0x81, 0x80] := by
  have h128 : toBytesBE 128 = [128] := by
    simp [toBytesBE, shiftRight_8_eq_div, and_255_eq_mod]
  rw [marshal_length_long (by norm_num) (by norm_num), h128]
  norm_num

/-- Concrete evaluation of `MarshalBinary` on a primitive IE with a
128-byte value: the value bytes are copied starting at offset 2, so they
overwrite the second byte of the long-form length header and the final
buffer byte is left at zero. -/
theorem marshalBinary_128 :
    (NewIE 0x30 (List.replicate 128 0xAA)).MarshalBinary =
      .ok (0x30 :: 0x81 :: (List.replicate 128 0xAA ++ [0])) := by
  have hlenv : (List.replicate 128 (0xAA : Nat)).length = 128 := by simp
  have hhdr : MarshalAsn1ElementLength (NewIE 0x30 (List.replicate 128 0xAA)).Length =
      [0x81, 0x80] := by
    rw [show (NewIE 0x30 (List.replicate 128 0xAA)).Length = 128 by
          simp [NewIE, IE.Length]]
    exact marshal_length_128
  have hml : (NewIE 0x30 (List.replicate 128 0xAA)).MarshalLen = 131 := by
    rw [IE.MarshalLen, hhdr]
    simp [NewIE, IE.Length]
  rw [IE.MarshalBinary, IE.MarshalTo, hml]
  rw [if_neg (by simp)]
  simp only [hhdr]
  rw [if_neg (by simp [NewIE, IE.Value])]
  rw [if_pos (by simp)]
  have hset : (List.replicate 131 (0 : Nat)).set 0
      ((NewIE 0x30 (List.replicate 128 0xAA)).Tag % 256) = 0x30 :: List.replicate 130 0 := by
    rw [show (131 : Nat) = 130 + 1 by omega, show (130 + 1 : Nat) = Nat.succ 130 from rfl,
        List.replicate_succ, List.set_cons_zero]
    rfl
  rw [hset]
  simp only [List.length_replicate, show (NewIE 0x30 (List.replicate 128 0xAA)).Value =
    List.replicate 128 0xAA from rfl]
  have hstep1 : goCopyAt (0x30 :: List.replicate 130 0) 1 131 [0x81, 0x80] =
      0x30 :: 0x81 :: 0x80 :: List.replicate 128 0 := by
    rw [goCopyAt]
    have hlen : (0x30 :: List.replicate 130 (0 : Nat)).length = 131 := by simp
    rw [← hlen, List.take_length, List.drop_length]
    have htake1 : (0x30 :: List.replicate 130 (0 : Nat)).take 1 = [0x30] := rfl
    have hdrop1 : (0x30 :: List.replicate 130 (0 : Nat)).drop 1 = List.replicate 130 0 := rfl
    rw [htake1, hdrop1, goCopy]
    simp only [List.length_replicate, List.length_cons, List.length_nil]
    rw [List.take_of_length_le (by simp), List.drop_replicate]
    simp [List.replicate_succ]
  rw [hstep1]
  have hstep2 : goCopyAt (0x30 :: 0x81 :: 0x80 :: List.replicate 128 0) 2 131
      (List.replicate 128 0xAA) = 0x30 :: 0x81 :: (List.replicate 128 0xAA ++ [0]) := by
    rw [goCopyAt]
    have hlen2 : (0x30 :: 0x81 :: 0x80 :: List.replicate 128 (0 : Nat)).length = 131 := by
      simp
    rw [← hlen2, List.take_length, List.drop_length]
    have htake2 : (0x30 :: 0x81 :: 0x80 :: List.replicate 128 (0 : Nat)).take 2 =
        [0x30, 0x81] := rfl
    have hdrop2 : (0x30 :: 0x81 :: 0x80 :: List.replicate 128 (0 : Nat)).drop 2 =
        0x80 :: List.replicate 128 0 := rfl
    rw [htake2, hdrop2, goCopy]
    simp only [List.length_replicate, List.length_cons]
    rw [List.take_of_length_le (by simp)]
    have hdrop128 : (0x80 :: List.replicate 128 (0 : Nat)).drop 128 = [0] := by
      rw [show (128 : Nat) = 127 + 1 by omega, List.drop_succ_cons, List.drop_replicate]
      rfl
    rw [hdrop128]
    simp
  rw [hstep2]

/-- C2 (code bug): serializing an IE whose `Length` (128) needs a two-byte
long-form header does not produce `[tag] ++ length-header ++ value`.
`MarshalTo` writes the full header at offset 1 but then copies the value
at the fixed offset 2, overwriting the header byte `0x80`; the resulting
buffer ends with an unwritten zero byte. -/
theorem marshalTo_longform_layout_bug :
    (NewIE 0x30 (List.replicate 128 0xAA)).MarshalTo (List.replicate 131 0) =
      .ok (0x30 :: 0x81 :: (List.replicate 128 0xAA ++ [0])) ∧
    0x30 :: 0x81 :: (List.replicate 128 0xAA ++ [0]) ≠
      0x30 :: (MarshalAsn1ElementLength (NewIE 0x30 (List.replicate 128 0xAA)).Length ++
        (NewIE 0x30 (List.replicate 128 0xAA)).Value) := by
  have hml : (NewIE 0x30 (List.replicate 128 0xAA)).MarshalLen = 131 := by
    rw [IE.MarshalLen,
        show (NewIE 0x30 (List.replicate 128 0xAA)).Length = 128 from by
          simp [NewIE, IE.Length],
        marshal_length_128]
    simp
  constructor
  · have h := marshalBinary_128
    rw [IE.MarshalBinary, hml] at h
    exact h
  · rw [show (NewIE 0x30 (List.replicate 128 0xAA)).Length = 128 from by
          simp [NewIE, IE.Length],
        marshal_length_128,
        show (NewIE 0x30 (List.replicate 128 0xAA)).Value = List.replicate 128 0xAA
          from rfl]
    intro heq
    have h2 := congrArg (fun l => l.getD 2 0) heq
    have hL : (0x30 :: 0x81 :: (List.replicate 128 (0xAA : Nat) ++ [0])).getD 2 0 =
        0xAA := rfl
    have hR : (0x30 :: ([0x81, 0x80] ++ List.replicate 128 (0xAA : Nat))).getD 2 0 =
        0x80 := rfl
    simp only [hL, hR] at h2
    omega

set_option maxRecDepth 8192 in
/-- Counterexample for C3 as stated: the round-trip fails both for an
empty value (the encoding is 2 bytes but the flat parser requires 3) and
for a 128-byte value (the serializer corrupts the long-form header, so the
parser reads value byte `0xAA = 170` as the length and then reports a
truncated buffer). -/
theorem primitive_ie_roundtrip_counterexample :
    (NewIE 4 []).MarshalBinary.bind ParseIE = .error .errUnexpectedEOF ∧
    (NewIE 4 []).MarshalBinary.bind ParseIE ≠ .ok (NewIE 4 []) ∧
    (NewIE 0x30 (List.replicate 128 0xAA)).MarshalBinary.bind ParseIE =
      .error .errUnexpectedEOF ∧
    (NewIE 0x30 (List.replicate 128 0xAA)).MarshalBinary.bind ParseIE ≠
      .ok (NewIE 0x30 (List.replicate 128 0xAA)) := by
  have h0 : (NewIE 4 ([] : List Nat)).MarshalBinary = .ok [4, 0] := rfl
  have h0p : ParseIE [4, 0] = .error .errUnexpectedEOF := rfl
  have h128p : ParseIE (0x30 :: 0x81 :: (List.replicate 128 0xAA ++ [0])) =
      .error .errUnexpectedEOF := rfl
  refine ⟨?_, ?_, ?_, ?_⟩
  · rw [h0]
    exact h0p
  · rw [h0]
    show ParseIE [4, 0] ≠ _
    rw [h0p]
    intro h
    cases h
  · rw [marshalBinary_128]
    exact h128p
  · rw [marshalBinary_128]
    show ParseIE (0x30 :: 0x81 :: (List.replicate 128 0xAA ++ [0])) ≠ _
    rw [h128p]
    intro h
    cases h

/-- C7 (amended): flat-parsing the concatenation of the `MarshalBinary`
encodings of a list of freshly built IEs, each with a tag byte below 256
and a value of 1 to 127 bytes (`Length = len(Value)`, no children),
succeeds and returns exactly those IEs in order, consuming every byte of
the input.  Values outside `[1, 127]` break this: see the
counterexample. -/
theorem flat_sequence_exact (ies : List IE) (bs : List (List Nat))
    (hmar : List.Forall₂ (fun ie bytes => ie.MarshalBinary = .ok bytes) ies bs) :
    (∀ ie ∈ ies, ie.Tag < 256 ∧ 1 ≤ ie.Value.length ∧ ie.Value.length ≤ 127 ∧
      ie.Length = ie.Value.length ∧ ie.children = []) →
    ParseMultiIEs bs.flatten = .ok ies := by
  induction hmar with
  | nil =>
    intro _
    rw [List.flatten_nil, ParseMultiIEs]
    rfl
  | @cons a bytes as bss hab htail ih =>
    intro hgood
    obtain ⟨ht, h1, h7, hLen, hch⟩ := hgood a (List.mem_cons_self _ _)
    have ha : NewIE a.Tag a.Value = a := by
      cases a with
      | mk t L v c =>
        simp only [IE.Tag, IE.Value, IE.Length, IE.children] at hLen hch ⊢
        rw [NewIE, hLen, hch]
    have hbytes : bytes = a.Tag :: a.Value.length :: a.Value := by
      have hm := marshalBinary_short a.Tag a.Value ht h1 h7
      rw [ha, hab] at hm
      exact Except.ok.inj hm
    subst hbytes
    rw [List.flatten_cons]
    have hbuf : (a.Tag :: a.Value.length :: a.Value) ++ bss.flatten =
        a.Tag :: a.Value.length :: (a.Value ++ bss.flatten) := by simp
    rw [hbuf, ParseMultiIEs]
    rw [dif_neg (by simp only [List.length_cons]; omega)]
    have hpi : ParseIE (a.Tag :: a.Value.length :: (a.Value ++ bss.flatten)) =
        .ok (.mk a.Tag a.Value.length a.Value []) :=
      unmarshalBinary_short a.Tag a.Value bss.flatten h1 h7
    have hmk : IE.mk a.Tag a.Value.length a.Value [] = a := by
      rw [← ha]
      rfl
    rw [hmk] at hpi
    simp only [hpi]
    have hmla : a.MarshalLen = 2 + a.Value.length := by
      rw [IE.MarshalLen, hLen, marshal_length_short h7]
      simp
    rw [if_pos (by
      simp only [hmla, List.length_cons, List.length_append]
      omega)]
    have hdrop : (a.Tag :: a.Value.length :: (a.Value ++ bss.flatten)).drop a.MarshalLen =
        bss.flatten := by
      rw [hmla, ← hbuf,
          show (2 : Nat) + a.Value.length = (a.Tag :: a.Value.length :: a.Value).length by
            simp only [List.length_cons]; omega]
      exact List.drop_left _ _
    rw [hdrop, ih (fun ie hie => hgood ie (List.mem_cons_of_mem _ hie))]

/-- Witness for C7 on the two concrete IEs `(0x04, [0xAA, 0xBB])` and
`(0x45, [0x01])`: the concatenation `[4, 2, 170, 187, 69, 1, 1]`
flat-parses back to both elements in order. -/
theorem flat_sequence_exact_witness :
    ParseMultiIEs [0x04, 0x02, 0xAA, 0xBB, 0x45, 0x01, 0x01] =
      .ok [NewIE 0x04 [0xAA, 0xBB], NewIE 0x45 [0x01]] := by
  have h := flat_sequence_exact [NewIE 0x04 [0xAA, 0xBB], NewIE 0x45 [0x01]]
    [[0x04, 0x02, 0xAA, 0xBB], [0x45, 0x01, 0x01]]
    (by
      refine List.Forall₂.cons ?_ (List.Forall₂.cons ?_ List.Forall₂.nil)
      · exact marshalBinary_short 0x04 [0xAA, 0xBB] (by decide) (by decide) (by decide)
      · exact marshalBinary_short 0x45 [0x01] (by decide) (by decide) (by decide))
    (by
      intro ie hie
      have hie2 : ie = NewIE 0x04 [0xAA, 0xBB] ∨ ie = NewIE 0x45 [0x01] := by
        simpa using hie
      rcases hie2 with h | h <;> subst h <;>
        exact ⟨by decide, by decide, by decide, rfl, rfl⟩)
  simpa using h

/-- Counterexample for C7 as stated: a single IE with an empty value
marshals to the two bytes `[5, 0]`, but the flat sequence parser rejects
any nonempty buffer shorter than 3 bytes, so the round-trip fails. -/
theorem flat_sequence_counterexample :
    (NewIE 5 []).MarshalBinary = .ok [5, 0] ∧
    ParseMultiIEs [5, 0] = .error .errUnexpectedEOF ∧
    ParseMultiIEs [5, 0] ≠ .ok [NewIE 5 []] := by
  have hmb : (NewIE 5 ([] : List Nat)).MarshalBinary = .ok [5, 0] := rfl
  have hp : ParseMultiIEs [5, 0] = .error .errUnexpectedEOF := by
    rw [ParseMultiIEs]
    rw [dif_neg (by decide)]
    have hpi : ParseIE [5, 0] = .error .errUnexpectedEOF := rfl
    simp only [hpi]
  refine ⟨hmb, hp, ?_⟩
  rw [hp]
  intro h
  cases h

set_option maxRecDepth 8192 in
/-- C10 (code bug): the flat sequence parser can read past its buffer.  On
the 130-byte buffer `[0x04, 0x81, 0x80, 0x00 x 127]` the single-IE parse
succeeds (the long-form length check only requires `2 + 128 = 130` bytes),
but the parsed element's `MarshalLen` is `131` because the long-form
header is two bytes wide, so the Go advance `b = b[131:]` on a 130-byte
slice panics (modelled here by the `sliceOutOfRange` outcome). -/
theorem parseMultiIEs_longform_panics :
    ParseIE (0x04 :: 0x81 :: 0x80 :: List.replicate 127 0x00) =
      .ok (.mk 0x04 128 (0x80 :: List.replicate 127 0x00) []) ∧
    (IE.mk 0x04 128 (0x80 :: List.replicate 127 0x00) []).MarshalLen = 131 ∧
    (0x04 :: 0x81 :: 0x80 :: List.replicate 127 (0x00 : Nat)).length = 130 ∧
    ParseMultiIEs (0x04 :: 0x81 :: 0x80 :: List.replicate 127 0x00) =
      .error .sliceOutOfRange := by
  have hpi : ParseIE (0x04 :: 0x81 :: 0x80 :: List.replicate 127 0x00) =
      .ok (.mk 0x04 128 (0x80 :: List.replicate 127 0x00) []) := rfl
  have hml : (IE.mk 0x04 128 (0x80 :: List.replicate 127 0x00) []).MarshalLen = 131 := by
    rw [IE.MarshalLen,
        show (IE.mk 0x04 128 (0x80 :: List.replicate 127 0x00) []).Length = 128 from rfl,
        marshal_length_128]
    simp
  have hlen : (0x04 :: 0x81 :: 0x80 :: List.replicate 127 (0x00 : Nat)).length = 130 := by
    simp
  refine ⟨hpi, hml, hlen, ?_⟩
  rw [ParseMultiIEs]
  rw [dif_neg (by rw [hlen]; omega)]
  simp only [hpi]
  rw [if_neg (by rw [hml, hlen]; omega)]
